import Mathlib

/-!
Shallow embedding of the Dirichlet-process Gibbs sampler
(src/gibbsDP.c, function cDPeco) and its bounded bivariate integration
engine (src/fintegrate.c), with theorems settling the frozen claims.

Machine doubles are modelled by exact rationals; the external random
draws and transcendental density evaluations (dMVN, dMVT, exp, qnorm)
are passed in as abstract values or functions, so that the control flow,
indexing and arithmetic of the C code are represented exactly.
-/

namespace Eco

/-! ## Definitions -/

/-- Initialization of the latent pair W for a main-sample unit
(gibbsDP.c lines 199-205).  The code tests the second data column
X[i][1], which holds the Y margin (the first column X[i][0] holds the
X margin, as the bounds formulas at lines 272-273 show): both W
coordinates start at 0 and are pinned to 0.000001 when Y = 0 and to
0.999999 when Y = 1.  The X margin is not consulted. -/
def initW (X Y : ℚ) : ℚ :=
  if Y = 0 then 1/1000000 else if Y = 1 then 999999/1000000 else 0

/-- Guard of the tomography-grid sampling block for a main-sample unit
(gibbsDP.c lines 270 and 342): the grid machinery runs iff the second
data column (the Y margin) is neither 0 nor 1. -/
def gridStepInvoked (X Y : ℚ) : Bool :=
  decide (Y ≠ 0 ∧ Y ≠ 1)

/-- State of the cDPeco driver restricted to the concentration
parameter alpha, the thinning counter itempC, and the stored output
streams pdSa (alpha draws) and pdSn (nstar counts). -/
structure DPDriverState where
  alpha : ℚ
  itempC : ℕ
  sa : List ℚ
  sn : List ℕ
deriving DecidableEq

/-- Initial driver state: alpha = 1 (gibbsDP.c line 101), counters at
zero, output streams empty. -/
def dpInitState : DPDriverState :=
  ⟨1, 0, [], []⟩

/-- One outer iteration of cDPeco restricted to the alpha update and
the storage step (gibbsDP.c lines 575-631).  nstar is the cluster
count produced by the remix pass of this iteration and alphaDraw is
the value the auxiliary-variable Gibbs step would produce; the update
runs only when pinUpdate is set, and the storage block writes alpha
and nstar only inside the same pinUpdate guard (lines 597-601). -/
def dpDriverStep (pinUpdate : Bool) (burnIn nth mainLoop nstar : ℕ)
    (alphaDraw : ℚ) (s : DPDriverState) : DPDriverState :=
  let a := if pinUpdate then alphaDraw else s.alpha
  if burnIn ≤ mainLoop then
    let c := s.itempC + 1
    if c = nth then
      { alpha := a, itempC := 0,
        sa := if pinUpdate then s.sa ++ [a] else s.sa,
        sn := if pinUpdate then s.sn ++ [nstar] else s.sn }
    else
      { alpha := a, itempC := c, sa := s.sa, sn := s.sn }
  else
    { alpha := a, itempC := s.itempC, sa := s.sa, sn := s.sn }

/-- Iterating dpDriverStep from iteration mainLoop over a list of
(nstar, alphaDraw) pairs, one per remaining outer iteration. -/
def dpDriverAux (pinUpdate : Bool) (burnIn nth : ℕ) :
    ℕ → List (ℕ × ℚ) → DPDriverState → DPDriverState
  | _, [], s => s
  | m, it :: rest, s =>
      dpDriverAux pinUpdate burnIn nth (m + 1) rest
        (dpDriverStep pinUpdate burnIn nth m it.1 it.2 s)

/-- Full driver run from the initial state (main_loop starts at 0). -/
def dpDriverRun (pinUpdate : Bool) (burnIn nth : ℕ)
    (iters : List (ℕ × ℚ)) : DPDriverState :=
  dpDriverAux pinUpdate burnIn nth 0 iters dpInitState

/-- One node of the SuffExp integrand (fintegrate.c lines 128-156).
The node data is abstract: w1 and w2 are the transformed coordinates
W1star(t), W2star(t); il1 and il2 the invLogit values of w1 and w2;
density the dBVNtomo value; pfact the arc-length factor; dmvnv the
dMVN log-likelihood density used by suff = 7.  Returns the integrand
value together with the flag recording whether the
unrecognized-suff diagnostic (line 154) fires. -/
def suffExpNode (suff : ℤ) (imposs : Bool)
    (w1 w2 il1 il2 density pfact dmvnv : ℚ) : ℚ × Bool :=
  if imposs then (0, false)
  else
    let base := density * pfact
    if suff = 0 then (w1 * base, false)
    else if suff = 1 then (w2 * base, false)
    else if suff = 2 then (w1 * w1 * base, false)
    else if suff = 3 then (w1 * w2 * base, false)
    else if suff = 4 then (w2 * w2 * base, false)
    else if suff = 5 then (il1 * base, false)
    else if suff = 6 then (il2 * base, false)
    else if suff = 7 then (dmvnv * pfact, false)
    else if suff = -1 then (base, false)
    else (base, true)

/-- Context carried by the integration-nonconvergence diagnostic
(fintegrate.c line 243): status code, moment tag, the margins of the unit,
the W1 bounds, and the estimate with its error bound. -/
structure IntegContext where
  ier : ℤ
  suff : ℤ
  x : ℚ
  y : ℚ
  w1lb : ℚ
  w1ub : ℚ
  est : ℚ
  err : ℚ
deriving DecidableEq

/-- Observable side effects of paramIntegration beyond its return
value: the Rprintf diagnostic and the blocking scanf console read. -/
inductive IntegEffect
  | diag (c : IntegContext)
  | readStdin
deriving DecidableEq

/-- paramIntegration (fintegrate.c lines 226-249) modelled as a
function of the quadrature outcome (result, err, ier) and the
parameter-block fields the diagnostic reads.  When ier = 0 it returns
the result with no effects; otherwise it prints the diagnostic, then
performs a blocking scanf read from the console (line 245), and still
returns the result. -/
def paramIntegration (result err : ℚ) (ier suff : ℤ)
    (x y w1lb w1ub : ℚ) : ℚ × List IntegEffect :=
  if ier = 0 then (result, [])
  else (result,
    [IntegEffect.diag ⟨ier, suff, x, y, w1lb, w1ub, result, err⟩,
     IntegEffect.readStdin])

/-- One x0 homogeneous-area update (gibbsDP.c lines 420-430),
modelling column 0 of Wstar (first component of the state) and of W
(second component).  linkInv is the logistic back-transform and
draw i abstracts the Normal draw for x0 unit i.  The Wstar write
targets index nSamp + i, exactly as in source line 427, while the W
write at line 428 reads index nSamp + x1Samp + i. -/
def x0UpdateStep (nSamp x1Samp : ℕ) (linkInv : ℚ → ℚ) (draw : ℕ → ℚ)
    (i : ℕ) (st : (ℕ → ℚ) × (ℕ → ℚ)) : (ℕ → ℚ) × (ℕ → ℚ) :=
  let ws := Function.update st.1 (nSamp + i) (draw i)
  let w := Function.update st.2 (nSamp + x1Samp + i)
    (linkInv (ws (nSamp + x1Samp + i)))
  (ws, w)

/-- The full x0 loop over i = 0 .. x0Samp - 1. -/
def x0UpdateRun (nSamp x1Samp x0Samp : ℕ) (linkInv : ℚ → ℚ)
    (draw : ℕ → ℚ) (st : (ℕ → ℚ) × (ℕ → ℚ)) : (ℕ → ℚ) × (ℕ → ℚ) :=
  (List.range x0Samp).foldl
    (fun s i => x0UpdateStep nSamp x1Samp linkInv draw i s) st

/-- Lower bound of the feasible W1 interval (gibbsDP.c line 272):
fmax2(0, (X + Y - 1)/X), with X the first data column X[i][0] and Y
the second data column X[i][1]. -/
def minW1 (X Y : ℚ) : ℚ :=
  max 0 ((X + Y - 1) / X)

/-- Upper bound of the feasible W1 interval (gibbsDP.c line 273):
fmin2(1, Y/X). -/
def maxW1 (X Y : ℚ) : ℚ :=
  min 1 (Y / X)

/-- Width of the feasible W1 interval. -/
def gridWidth (X Y : ℚ) : ℚ :=
  maxW1 X Y - minW1 X Y

/-- Number of grid points (gibbsDP.c lines 276-293): the truncation
ftrunc(width * n_step) with n_step = 1000 when the width exceeds two
grid steps, else the two fixed interior probe points. -/
def nGrid (X Y : ℚ) : ℕ :=
  if gridWidth X Y > 2 * (1/1000) then (⌊gridWidth X Y * 1000⌋).toNat else 2

/-- Leftover residual of the grid (gibbsDP.c line 278). -/
def gridResid (X Y : ℚ) : ℚ :=
  gridWidth X Y - nGrid X Y * (1/1000)

/-- The j-th W1 grid point (gibbsDP.c lines 281-283 and 289-291):
equally spaced points nudged inward by half the residual at the two
ends, or the two one-third/two-thirds probe points in the degenerate
branch. -/
def W1g (X Y : ℚ) (j : ℕ) : ℚ :=
  if gridWidth X Y > 2 * (1/1000) then
    let base := minW1 X Y + (j + 1) * (1/1000) - ((1/1000) + gridResid X Y) / 2
    let b1 := if base - minW1 X Y < gridResid X Y / 2
      then base + gridResid X Y / 2 else base
    if maxW1 X Y - b1 < gridResid X Y / 2 then b1 - gridResid X Y / 2 else b1
  else
    if j = 0 then minW1 X Y + gridWidth X Y / 3
    else minW1 X Y + 2 * gridWidth X Y / 3

/-- The W2 value paired with a W1 grid value (gibbsDP.c lines 284,
290, 292): W2 = (Y - X * W1)/(1 - X), the accounting identity solved
for W2. -/
def W2g (X Y w1 : ℚ) : ℚ :=
  (Y - X * w1) / (1 - X)

/-- The guarded inverse-CDF search of the tomography draw
(gibbsDP.c line 384): j = 0; while (u > cum j and j < n - 1) j++.
The fuel argument carries n - 1 - j, the number of increments still
allowed. -/
def gridFindAux (u : ℚ) (cum : ℕ → ℚ) : ℕ → ℕ → ℕ
  | j, 0 => j
  | j, fuel + 1 => if u > cum j then gridFindAux u cum (j + 1) fuel else j

/-- Entry point of the guarded search, starting at j = 0 with at most
n - 1 increments. -/
def gridFind (u : ℚ) (cum : ℕ → ℚ) (n : ℕ) : ℕ :=
  gridFindAux u cum 0 (n - 1)

/-- The tomography-grid draw for one unit (gibbsDP.c lines 382-386):
select the index by the guarded inverse-CDF search against the
normalized cumulative weights of the unit, then read the W pair off the grid. -/
def drawW (X Y : ℚ) (cum : ℕ → ℚ) (u : ℚ) : ℚ × ℚ :=
  (W1g X Y (gridFind u cum (nGrid X Y)),
   W2g X Y (W1g X Y (gridFind u cum (nGrid X Y))))

/-- setBounds (fintegrate.c lines 260-303): W1 bounds from W2 in
{0, 1} and W2 bounds from W1 in {0, 1}, each clamped to 0 when the
raw value is below tol0 = 0.0001 and to 1 when above tol1 = 0.9999.
Returned as ((w1_lb, w1_ub), (w2_lb, w2_ub)). -/
def setBounds (X Y : ℚ) : (ℚ × ℚ) × (ℚ × ℚ) :=
  ((if (Y - (1 - X) * 1) / X < 1/10000 then 0 else (Y - (1 - X) * 1) / X,
    if (Y - (1 - X) * 0) / X > 9999/10000 then 1 else (Y - (1 - X) * 0) / X),
   (if Y / (1 - X) - X * 1 / (1 - X) < 1/10000 then 0
      else Y / (1 - X) - X * 1 / (1 - X),
    if Y / (1 - X) - X * 0 / (1 - X) > 9999/10000 then 1
      else Y / (1 - X) - X * 0 / (1 - X)))

/-- Running prefix sums with accumulator, as the qq array is built
from the q array (gibbsDP.c lines 437-445). -/
def cumsum (acc : ℚ) : List ℚ → List ℚ
  | [] => []
  | x :: xs => (acc + x) :: cumsum (acc + x) xs

/-- The normalized cumulative weights (gibbsDP.c lines 447-449):
each prefix sum divided by the final total. -/
def normCum (q : List ℚ) : List ℚ :=
  (cumsum 0 q).map (fun c => c / q.sum)

/-- The unguarded inverse-CDF search of the Polya-urn draw
(gibbsDP.c lines 454-455): j = 0; while (u > qq j) j++.  Out of
elements it returns the list length, the index at which the C loop
would read past the array. -/
def whileFind (u : ℚ) : List ℚ → ℕ
  | [] => 0
  | c :: rest => if u > c then whileFind u rest + 1 else 0

/-- The Polya-urn weight vector q of unit i (gibbsDP.c lines
436-445): slot j holds dMVN(Wstar_i; mu_j, Sigma_j) for j distinct
from i, and slot i holds alpha times the Student-t new-table density.
dmvn j abstracts the dMVN evaluation against the current
parameters of unit j and tnew the dMVT(Wstar_i; mu0, S_bvt, nu0 - 1)
evaluation. -/
def genQ (i : ℕ) (dmvn : ℕ → ℚ) (alpha tnew : ℚ) (t : ℕ) : List ℚ :=
  (List.range t).map (fun j => if j = i then alpha * tnew else dmvn j)

/-- Modelled from the spec (section 4.5): the same weight multiset
but with the new-table weight enumerated last, after the dMVN weights
of the units distinct from i in index order.  Used only to compare
the enumeration order claimed by the spec against that of the code. -/
def genQSpecLast (i : ℕ) (dmvn : ℕ → ℚ) (alpha tnew : ℚ) (t : ℕ) : List ℚ :=
  (((List.range t).filter (fun j => decide (j ≠ i))).map dmvn) ++ [alpha * tnew]

/-- Length of the leading run of pairs whose label equals j: the
number of iterations of the inner while loop of the remix step
(gibbsDP.c line 517) beyond the first element. -/
def blockLen (j : ℕ) : List (ℕ × ℕ) → ℕ
  | [] => 0
  | p :: rest => if p.1 = j then blockLen j rest + 1 else 0

/-- The remixing loop (gibbsDP.c lines 502-573) over the sorted list
of (label, unit) pairs: peel off the leading block of equal labels,
assign its members the running block counter nstar as their new label
together with the conjugate posterior draw of the block, and continue on
the remainder with nstar + 1.  draws n abstracts the random
(mu_mix, Sigma_mix, InvSigma_mix) drawn for the n-th block.  Returns
the (unit, new label, parameter) triples and the final nstar. -/
def remixAux {α : Type} (draws : ℕ → α) :
    List (ℕ × ℕ) → ℕ → List (ℕ × ℕ × α) × ℕ
  | [], nstar => ([], nstar)
  | p :: rest, nstar =>
      let k := blockLen p.1 rest
      let r := remixAux draws (rest.drop k) (nstar + 1)
      ((p.2 :: (rest.take k).map Prod.snd).map
        (fun uu => (uu, nstar, draws nstar)) ++ r.1, r.2)
termination_by l _ => l.length
decreasing_by
  simp only [List.length_drop, List.length_cons]
  omega

/-- The sort preceding the remix loop (R_qsort_int_I at gibbsDP.c
line 500): the pairs (sortC, indexC) = (label, unit id) ordered by
label. -/
def sortPairs (C : List ℕ) : List (ℕ × ℕ) :=
  List.insertionSort (fun a b => a.1 ≤ b.1)
    (C.enum.map (fun p => (p.2, p.1)))

/-- A full remix pass on a membership vector C (indexed by unit). -/
def remix {α : Type} (draws : ℕ → α) (C : List ℕ) :
    List (ℕ × ℕ × α) × ℕ :=
  remixAux draws (sortPairs C) 0

/-! ## Theorems -/

/-- Helper: with the alpha-update toggle off, one driver step leaves
alpha and both output streams untouched. -/
theorem dpDriverStep_noUpdate (burnIn nth mainLoop nstar : ℕ)
    (alphaDraw : ℚ) (s : DPDriverState) :
    (dpDriverStep false burnIn nth mainLoop nstar alphaDraw s).alpha = s.alpha ∧
    (dpDriverStep false burnIn nth mainLoop nstar alphaDraw s).sa = s.sa ∧
    (dpDriverStep false burnIn nth mainLoop nstar alphaDraw s).sn = s.sn := by
  unfold dpDriverStep
  by_cases h1 : burnIn ≤ mainLoop <;> by_cases h2 : s.itempC + 1 = nth <;>
    simp [h1, h2]

/-- Helper: the same invariance for the whole iteration loop. -/
theorem dpDriverAux_noUpdate (burnIn nth : ℕ) :
    ∀ (iters : List (ℕ × ℚ)) (m : ℕ) (s : DPDriverState),
    (dpDriverAux false burnIn nth m iters s).alpha = s.alpha ∧
    (dpDriverAux false burnIn nth m iters s).sa = s.sa ∧
    (dpDriverAux false burnIn nth m iters s).sn = s.sn := by
  intro iters
  induction iters with
  | nil => intro m s; exact ⟨rfl, rfl, rfl⟩
  | cons it rest ih =>
      intro m s
      have hs := dpDriverStep_noUpdate burnIn nth m it.1 it.2 s
      have hr := ih (m + 1) (dpDriverStep false burnIn nth m it.1 it.2 s)
      exact ⟨hr.1.trans hs.1, hr.2.1.trans hs.2.1, hr.2.2.trans hs.2.2⟩

/-- Claim C1 (counterexample): with the alpha-update toggle disabled,
burn-in 0, thinning 1 and one iteration whose remix yields nstar = 1,
the claim as stated requires the stored nstar stream to record that
iteration ([1]) and the stored alpha stream to hold the constant 1.0
([1]); the code stores neither, leaving both streams empty. -/
theorem dpDriver_counterexample_C1 :
    (dpDriverRun false 0 1 [(1, 7)]).sn ≠ [1] ∧
    (dpDriverRun false 0 1 [(1, 7)]).sa ≠ [1] := by
  decide

/-- Claim C1 (amended): when the alpha-update toggle is disabled,
cDPeco never writes to the alpha or nstar output arrays at all (the
storage of both is inside the pinUpdate guard), and the internal
alpha stays at its initial value 1.0 throughout the run. -/
theorem dpDriver_noUpdate_storage (burnIn nth : ℕ)
    (iters : List (ℕ × ℚ)) :
    (dpDriverRun false burnIn nth iters).alpha = 1 ∧
    (dpDriverRun false burnIn nth iters).sa = [] ∧
    (dpDriverRun false burnIn nth iters).sn = [] :=
  dpDriverAux_noUpdate burnIn nth iters 0 dpInitState

/-- Claim C3 (counterexample): on a nonconvergent quadrature outcome
(ier = 1) the code does not merely log and continue: its effect list
contains a blocking console read (the scanf at fintegrate.c line 245),
contradicting the claim that the sampler continues without halting or
blocking. -/
theorem paramIntegration_counterexample_C3 :
    IntegEffect.readStdin ∈
      (paramIntegration 3 (1/2) 1 0 (1/4) (1/2) 0 1).2 := by
  decide

/-- Claim C3 (amended): paramIntegration always returns its scalar
quadrature estimate; when ier = 0 there is no side effect, and when
ier is nonzero it emits the diagnostic carrying the status code, the
inputs and bounds of the unit and the estimate, and then performs a blocking
console read before returning the same best-effort estimate. -/
theorem paramIntegration_contract (result err : ℚ) (ier suff : ℤ)
    (x y w1lb w1ub : ℚ) :
    (paramIntegration result err ier suff x y w1lb w1ub).1 = result ∧
    (ier = 0 → (paramIntegration result err ier suff x y w1lb w1ub).2 = []) ∧
    (ier ≠ 0 → (paramIntegration result err ier suff x y w1lb w1ub).2 =
      [IntegEffect.diag ⟨ier, suff, x, y, w1lb, w1ub, result, err⟩,
       IntegEffect.readStdin]) := by
  by_cases h : ier = 0 <;> simp [paramIntegration, h]

/-- Witness for paramIntegration_contract at a concrete nonconvergent
input. -/
theorem paramIntegration_contract_witness :
    (paramIntegration 3 (1/2) 1 0 (1/4) (1/2) 0 1).1 = 3 ∧
    ((1 : ℤ) = 0 → (paramIntegration 3 (1/2) 1 0 (1/4) (1/2) 0 1).2 = []) ∧
    ((1 : ℤ) ≠ 0 → (paramIntegration 3 (1/2) 1 0 (1/4) (1/2) 0 1).2 =
      [IntegEffect.diag ⟨1, 0, 1/4, 1/2, 0, 1, 3, 1/2⟩,
       IntegEffect.readStdin]) :=
  paramIntegration_contract 3 (1/2) 1 0 (1/4) (1/2) 0 1

/-- Claim C4 (counterexample): at the unrecognized moment tag
suff = 8 (imposs clear, density = 1, pfact = 1) the diagnostic fires
but the integrand value is 1, the plain density value, not 0. -/
theorem suffExpNode_counterexample_C4 :
    (suffExpNode 8 false 0 0 0 0 1 1 0).1 ≠ 0 ∧
    (suffExpNode 8 false 0 0 0 0 1 1 0).2 = true := by
  norm_num [suffExpNode]

/-- Claim C4 (amended): for a moment tag outside the recognized range
-1 .. 7, SuffExp emits the diagnostic but leaves the node value at the
plain density value density * pfact (the value set before the tag
dispatch), rather than zeroing it. -/
theorem suffExpNode_unrecognized (suff : ℤ)
    (h : ¬(-1 ≤ suff ∧ suff ≤ 7))
    (w1 w2 il1 il2 density pfact dmvnv : ℚ) :
    suffExpNode suff false w1 w2 il1 il2 density pfact dmvnv =
      (density * pfact, true) := by
  have h0 : suff ≠ 0 := by omega
  have h1 : suff ≠ 1 := by omega
  have h2 : suff ≠ 2 := by omega
  have h3 : suff ≠ 3 := by omega
  have h4 : suff ≠ 4 := by omega
  have h5 : suff ≠ 5 := by omega
  have h6 : suff ≠ 6 := by omega
  have h7 : suff ≠ 7 := by omega
  have h8 : suff ≠ -1 := by omega
  simp [suffExpNode, h0, h1, h2, h3, h4, h5, h6, h7, h8]

/-- Witness for suffExpNode_unrecognized at suff = 8. -/
theorem suffExpNode_unrecognized_witness :
    suffExpNode 8 false 0 0 0 0 1 1 0 = (1 * 1, true) :=
  suffExpNode_unrecognized 8 (by decide) 0 0 0 0 1 1 0

/-- Claim C5 (counterexample): a unit with X margin 0 and Y margin
1/2 refutes the claim: its W1 is initialized to 0, not 0.000001, and
the tomography-grid guard is true, so grid sampling is invoked for it
every iteration. -/
theorem initW_counterexample_C5 :
    gridStepInvoked 0 (1/2) = true ∧ initW 0 (1/2) ≠ 1/1000000 := by
  norm_num [gridStepInvoked, initW]

/-- Claim C5 (amended): the degeneracy test is on the Y margin, not
the X margin: for any unit whose Y margin equals 0, both W
coordinates are forced to 0.000001 at initialization and the
tomography-grid sampling step is never invoked for that unit. -/
theorem initW_degenerate (X Y : ℚ) (h : Y = 0) :
    initW X Y = 1/1000000 ∧ gridStepInvoked X Y = false := by
  subst h
  constructor
  · simp [initW]
  · simp [gridStepInvoked]

/-- Witness for initW_degenerate at X = 1/2, Y = 0. -/
theorem initW_degenerate_witness :
    initW (1/2) 0 = 1/1000000 ∧ gridStepInvoked (1/2) 0 = false :=
  initW_degenerate (1/2) 0 rfl

/-- Claim C6 (code bug, evaluation): with n_samp = 1, x1_samp = 1,
x0_samp = 1, all Wstar column-0 entries initially 0 and drawn value 5,
the x0 update leaves the own slot of the x0 unit (index 2 =
n_samp + x1_samp + 0) unchanged at 0, clobbers the x1-slice slot
(index 1 = n_samp + 0) with the draw, and back-transforms the stale
value 0 of slot 2 into W.  The claim (and the per-slice indexing intended
by the spec) requires slot 2 to receive the draw and slot 1 to
stay unchanged. -/
theorem x0Update_bug_C6 :
    (x0UpdateRun 1 1 1 id (fun _ => 5) (fun _ => 0, fun _ => 0)).1 2 = 0 ∧
    (x0UpdateRun 1 1 1 id (fun _ => 5) (fun _ => 0, fun _ => 0)).1 1 = 5 ∧
    (x0UpdateRun 1 1 1 id (fun _ => 5) (fun _ => 0, fun _ => 0)).2 2 = 0 :=
  ⟨rfl, rfl, rfl⟩

/-- Helper: the guarded search increments at most fuel times. -/
theorem gridFindAux_le (u : ℚ) (cum : ℕ → ℚ) :
    ∀ (fuel j : ℕ), gridFindAux u cum j fuel ≤ j + fuel := by
  intro fuel
  induction fuel with
  | zero => intro j; simp [gridFindAux]
  | succ f ih =>
      intro j
      by_cases h : u > cum j
      · calc gridFindAux u cum j (f + 1) = gridFindAux u cum (j + 1) f := by
              simp [gridFindAux, h]
          _ ≤ (j + 1) + f := ih (j + 1)
          _ = j + (f + 1) := by omega
      · simp only [gridFindAux, if_neg h]
        omega

/-- Helper: the grid always has at least one point (at least two, in
fact, in both branches of the grid construction). -/
theorem nGrid_pos (X Y : ℚ) : 1 ≤ nGrid X Y := by
  unfold nGrid
  by_cases h : gridWidth X Y > 2 * (1/1000)
  · simp only [h, if_true]
    have h2 : (2 : ℤ) ≤ ⌊gridWidth X Y * 1000⌋ := by
      rw [Int.le_floor]
      push_cast
      linarith
    omega
  · rw [if_neg h]
    norm_num

/-- Helper: the guarded search lands strictly inside the grid. -/
theorem gridFind_lt (u : ℚ) (cum : ℕ → ℚ) (n : ℕ) (h : 1 ≤ n) :
    gridFind u cum n < n := by
  have := gridFindAux_le u cum (n - 1) 0
  unfold gridFind
  omega

/-- Helper: prefix sums preserve length. -/
theorem cumsum_length : ∀ (l : List ℚ) (acc : ℚ),
    (cumsum acc l).length = l.length := by
  intro l
  induction l with
  | nil => intro acc; rfl
  | cons x xs ih => intro acc; simp [cumsum, ih]

/-- Helper: the last prefix sum is the accumulator plus the total. -/
theorem cumsum_getLast : ∀ (l : List ℚ) (acc : ℚ), l ≠ [] →
    (cumsum acc l).getLast? = some (acc + l.sum) := by
  intro l
  induction l with
  | nil => intro acc h; exact absurd rfl h
  | cons x xs ih =>
      intro acc _
      cases xs with
      | nil => simp [cumsum]
      | cons y ys =>
          have h2 := ih (acc + x) (by simp)
          simp only [cumsum] at h2 ⊢
          rw [List.getLast?_cons_cons, h2]
          simp only [Option.some.injEq, List.sum_cons]
          ring

/-- Helper: normalization preserves length. -/
theorem normCum_length (q : List ℚ) : (normCum q).length = q.length := by
  simp [normCum, cumsum_length]

/-- Helper: the last normalized cumulative weight is exactly 1. -/
theorem normCum_getLast (q : List ℚ) (h : q ≠ []) (hs : q.sum ≠ 0) :
    (normCum q).getLast? = some 1 := by
  unfold normCum
  rw [List.getLast?_map, cumsum_getLast q 0 h]
  simp only [Option.map_some', Option.some.injEq, zero_add]
  exact div_self hs

/-- Helper: a value reported by getLast? is a member of the list. -/
theorem mem_of_getLastEq {l : List ℚ} {a : ℚ} (h : l.getLast? = some a) :
    a ∈ l := by
  rcases List.mem_getLast?_eq_getLast (show a ∈ l.getLast? by rw [h]; rfl)
    with ⟨hne, heq⟩
  rw [heq]
  exact List.getLast_mem hne

/-- Helper: the unguarded search stops before the end as soon as some
element is at least the draw. -/
theorem whileFind_lt_of_exists (u : ℚ) :
    ∀ l : List ℚ, (∃ c ∈ l, u ≤ c) → whileFind u l < l.length := by
  intro l
  induction l with
  | nil => rintro ⟨c, hc, _⟩; simp at hc
  | cons x xs ih =>
      rintro ⟨c, hc, hu⟩
      by_cases h : u > x
      · have hcx : c ∈ xs := by
          rcases List.mem_cons.mp hc with h1 | h1
          · subst h1; linarith
          · exact h1
        have h3 := ih ⟨c, hcx, hu⟩
        simp only [whileFind, if_pos h, List.length_cons]
        omega
      · simp only [whileFind, if_neg h, List.length_cons]
        omega

/-- Helper: every cumulative weight strictly before the selected index
is strictly below the draw. -/
theorem whileFind_gt (u : ℚ) :
    ∀ (l : List ℚ) (k : ℕ), k < whileFind u l → u > l.getD k 0 := by
  intro l
  induction l with
  | nil => intro k hk; simp [whileFind] at hk
  | cons x xs ih =>
      intro k hk
      by_cases h : u > x
      · simp only [whileFind, if_pos h] at hk
        cases k with
        | zero => simpa [List.getD_cons_zero]
        | succ k2 =>
            rw [List.getD_cons_succ]
            exact ih k2 (by omega)
      · simp only [whileFind, if_neg h] at hk
        omega

/-- Helper: the cumulative weight at the selected index is at least
the draw, whenever the search stops inside the list. -/
theorem whileFind_stop (u : ℚ) :
    ∀ l : List ℚ, whileFind u l < l.length → u ≤ l.getD (whileFind u l) 0 := by
  intro l
  induction l with
  | nil => intro h; simp at h
  | cons x xs ih =>
      by_cases h : u > x
      · intro hlen
        simp only [whileFind, if_pos h, List.length_cons] at hlen ⊢
        rw [List.getD_cons_succ]
        exact ih (by omega)
      · intro _
        simp only [whileFind, if_neg h, List.getD_cons_zero]
        linarith

/-- Claim C10: both inverse-CDF selection loops in cDPeco terminate
with an in-bounds index.  The tomography-grid search is guarded by
j < n - 1, so for every unit its index is below nGrid regardless of
the draw and the weights; the Polya-urn search is unguarded but stops
strictly inside the weight list because the final normalized
cumulative weight is exactly 1 while the uniform draw is below 1
(weights are positive densities, so the total is nonzero). -/
theorem invCDF_inBounds_C10 :
    (∀ (X Y u : ℚ) (cum : ℕ → ℚ),
      gridFind u cum (nGrid X Y) < nGrid X Y) ∧
    (∀ (q : List ℚ) (u : ℚ), q ≠ [] → (∀ x ∈ q, 0 < x) → u < 1 →
      (normCum q).getLast? = some 1 ∧ whileFind u (normCum q) < q.length) := by
  constructor
  · intro X Y u cum
    exact gridFind_lt u cum (nGrid X Y) (nGrid_pos X Y)
  · intro q u hne hpos hu
    have hsum : 0 < q.sum := List.sum_pos q hpos hne
    have hlast := normCum_getLast q hne (ne_of_gt hsum)
    refine ⟨hlast, ?_⟩
    have h1 : (1 : ℚ) ∈ normCum q := mem_of_getLastEq hlast
    have h2 := whileFind_lt_of_exists u (normCum q) ⟨1, h1, le_of_lt hu⟩
    rwa [normCum_length] at h2

/-- Witness for invCDF_inBounds_C10: the Polya-urn part at the
concrete weight list [1, 1] and draw 1/2. -/
theorem invCDF_inBounds_C10_witness :
    (normCum [1, 1]).getLast? = some 1 ∧
    whileFind (1/2) (normCum [1, 1]) < ([1, 1] : List ℚ).length :=
  invCDF_inBounds_C10.2 [1, 1] (1/2) (by simp) (by norm_num) (by norm_num)

/-- Claim C8: for a unit with X margin strictly inside (0, 1), any
tomography draw satisfies the accounting identity exactly (hence
within 1e-6): the W2 value of the selected grid point is
(Y - X * W1)/(1 - X) by construction. -/
theorem accountingIdentity_C8 (X Y u : ℚ) (cum : ℕ → ℚ)
    (hx0 : 0 < X) (hx1 : X < 1) :
    |Y - (X * (drawW X Y cum u).1 + (1 - X) * (drawW X Y cum u).2)| <
      1/1000000 := by
  have hx : (1 : ℚ) - X ≠ 0 := by linarith
  have hz : Y - (X * (drawW X Y cum u).1 + (1 - X) * (drawW X Y cum u).2) = 0 := by
    unfold drawW W2g
    field_simp
  rw [hz, abs_zero]
  norm_num

/-- Witness for accountingIdentity_C8 at X = 1/2, Y = 1/2, constant
cumulative weights and draw 1/2. -/
theorem accountingIdentity_C8_witness :
    |(1/2 : ℚ) - (1/2 * (drawW (1/2) (1/2) (fun _ => 1) (1/2)).1 +
      (1 - 1/2) * (drawW (1/2) (1/2) (fun _ => 1) (1/2)).2)| < 1/1000000 :=
  accountingIdentity_C8 (1/2) (1/2) (1/2) (fun _ => 1)
    (by norm_num) (by norm_num)

/-- Claim C9 (counterexample): at X = 1/2, Y = 0.49999 the raw W1
upper bound Y/X = 0.99998 lies inside the clamping tolerance of
setBounds, which returns 1 instead of the claimed min(1, Y/X). -/
theorem setBounds_counterexample_C9 :
    (setBounds (1/2) (49999/100000)).1.2 ≠
      min 1 ((49999/100000 : ℚ) / (1/2)) := by
  norm_num [setBounds, min_def]

/-- Claim C9 (amended): for margins X, Y strictly inside (0, 1) the
grid path of cDPeco produces exactly the interval
[max(0, (X+Y-1)/X), min(1, Y/X)] and it is non-empty; setBounds
computes the same raw endpoints but clamps the lower ones to 0 below
tolerance 0.0001 and the upper ones to 1 above tolerance 0.9999 (W2
endpoints derived from the identity with W1 in {0, 1}), and the
clamped intervals are likewise non-empty. -/
theorem bounds_amended_C9 (X Y : ℚ)
    (hx0 : 0 < X) (hx1 : X < 1) (hy0 : 0 < Y) (hy1 : Y < 1) :
    (minW1 X Y ≤ maxW1 X Y) ∧
    ((setBounds X Y).1.1 =
      (if (X + Y - 1)/X < 1/10000 then 0 else (X + Y - 1)/X)) ∧
    ((setBounds X Y).1.2 =
      (if Y/X > 9999/10000 then 1 else Y/X)) ∧
    ((setBounds X Y).2.1 =
      (if (Y - X)/(1 - X) < 1/10000 then 0 else (Y - X)/(1 - X))) ∧
    ((setBounds X Y).2.2 =
      (if Y/(1 - X) > 9999/10000 then 1 else Y/(1 - X))) ∧
    ((setBounds X Y).1.1 ≤ (setBounds X Y).1.2) ∧
    ((setBounds X Y).2.1 ≤ (setBounds X Y).2.2) := by
  have hx2 : (0 : ℚ) < 1 - X := by linarith
  have e1 : (Y - (1 - X) * 1) / X = (X + Y - 1)/X := by ring_nf
  have e2 : (Y - (1 - X) * 0) / X = Y/X := by ring_nf
  have e3 : Y / (1 - X) - X * 1 / (1 - X) = (Y - X)/(1 - X) := by ring_nf
  have e4 : Y / (1 - X) - X * 0 / (1 - X) = Y/(1 - X) := by ring_nf
  have hub : (0 : ℚ) ≤ Y/X := div_nonneg (le_of_lt hy0) (le_of_lt hx0)
  have hlb1 : (X + Y - 1)/X ≤ 1 := (div_le_one hx0).mpr (by linarith)
  have hlbub : (X + Y - 1)/X ≤ Y/X :=
    (div_le_div_iff_of_pos_right hx0).mpr (by linarith)
  have h2ub : (0 : ℚ) ≤ Y/(1 - X) := div_nonneg (le_of_lt hy0) (le_of_lt hx2)
  have h2lb1 : (Y - X)/(1 - X) ≤ 1 := (div_le_one hx2).mpr (by linarith)
  have h2lbub : (Y - X)/(1 - X) ≤ Y/(1 - X) :=
    (div_le_div_iff_of_pos_right hx2).mpr (by linarith)
  refine ⟨?_, ?_, ?_, ?_, ?_, ?_, ?_⟩
  · exact max_le (le_min (by norm_num) hub) (le_min hlb1 hlbub)
  · simp only [setBounds, e1]
  · simp only [setBounds, e2]
  · simp only [setBounds, e3]
  · simp only [setBounds, e4]
  · simp only [setBounds, e1, e2]
    by_cases c1 : (X + Y - 1)/X < 1/10000
    · rw [if_pos c1]
      by_cases c2 : Y/X > 9999/10000
      · rw [if_pos c2]; norm_num
      · rw [if_neg c2]; linarith
    · rw [if_neg c1]
      by_cases c2 : Y/X > 9999/10000
      · rw [if_pos c2]; linarith
      · rw [if_neg c2]; linarith
  · simp only [setBounds, e3, e4]
    by_cases c1 : (Y - X)/(1 - X) < 1/10000
    · rw [if_pos c1]
      by_cases c2 : Y/(1 - X) > 9999/10000
      · rw [if_pos c2]; norm_num
      · rw [if_neg c2]; linarith
    · rw [if_neg c1]
      by_cases c2 : Y/(1 - X) > 9999/10000
      · rw [if_pos c2]; linarith
      · rw [if_neg c2]; linarith

/-- Witness for bounds_amended_C9 at X = 1/2, Y = 1/2. -/
theorem bounds_amended_C9_witness :
    (minW1 (1/2) (1/2) ≤ maxW1 (1/2) (1/2)) ∧
    ((setBounds (1/2) (1/2)).1.1 =
      (if ((1/2 : ℚ) + 1/2 - 1)/(1/2) < 1/10000 then 0
        else ((1/2 : ℚ) + 1/2 - 1)/(1/2))) ∧
    ((setBounds (1/2) (1/2)).1.2 =
      (if (1/2 : ℚ)/(1/2) > 9999/10000 then 1 else (1/2 : ℚ)/(1/2))) ∧
    ((setBounds (1/2) (1/2)).2.1 =
      (if ((1/2 : ℚ) - 1/2)/(1 - 1/2) < 1/10000 then 0
        else ((1/2 : ℚ) - 1/2)/(1 - 1/2))) ∧
    ((setBounds (1/2) (1/2)).2.2 =
      (if (1/2 : ℚ)/(1 - 1/2) > 9999/10000 then 1
        else (1/2 : ℚ)/(1 - 1/2))) ∧
    ((setBounds (1/2) (1/2)).1.1 ≤ (setBounds (1/2) (1/2)).1.2) ∧
    ((setBounds (1/2) (1/2)).2.1 ≤ (setBounds (1/2) (1/2)).2.2) :=
  bounds_amended_C9 (1/2) (1/2) (by norm_num) (by norm_num)
    (by norm_num) (by norm_num)

/-- Helper: the weight vector has one slot per effective-sample
unit. -/
theorem genQ_length (i : ℕ) (dmvn : ℕ → ℚ) (alpha tnew : ℚ) (t : ℕ) :
    (genQ i dmvn alpha tnew t).length = t := by
  simp [genQ]

/-- Helper: pointwise description of the weight vector. -/
theorem genQ_getD (i t j : ℕ) (dmvn : ℕ → ℚ) (alpha tnew : ℚ)
    (hj : j < t) :
    (genQ i dmvn alpha tnew t).getD j 0 =
      if j = i then alpha * tnew else dmvn j := by
  unfold genQ
  rw [List.getD_eq_getElem?_getD, List.getElem?_map, List.getElem?_range hj]
  rfl

/-- Helper: the weights are positive when the abstract densities
are. -/
theorem genQ_pos (i t : ℕ) (dmvn : ℕ → ℚ) (alpha tnew : ℚ)
    (hpos : ∀ j, 0 < dmvn j) (hnew : 0 < alpha * tnew) :
    ∀ x ∈ genQ i dmvn alpha tnew t, 0 < x := by
  intro x hx
  rcases List.mem_map.mp hx with ⟨j, _, rfl⟩
  by_cases h : j = i
  · simpa [h] using hnew
  · simpa [h] using hpos j

/-- Claim C2 (counterexample): for unit i = 0 of an effective sample
of size 2, with dMVN values j + 2 and new-table weight 1 * 5, the
code enumerates the new-table weight first (slot 0, the own index
of the unit), not last: its weight vector is [5, 3] whereas the claimed
enumeration with the new-table branch last would be [3, 5]. -/
theorem genQ_counterexample_C2 :
    genQ 0 (fun j => (j : ℚ) + 2) 1 5 2 ≠
      genQSpecLast 0 (fun j => (j : ℚ) + 2) 1 5 2 := by
  have h1 : genQ 0 (fun j => (j : ℚ) + 2) 1 5 2 = [5, 3] := by
    simp [genQ, List.range_succ]
    norm_num
  have h2 : genQSpecLast 0 (fun j => (j : ℚ) + 2) 1 5 2 = [3, 5] := by
    simp [genQSpecLast, List.range_succ]
    norm_num
  rw [h1, h2]
  intro h
  have := List.head_eq_of_cons_eq h
  norm_num at this

/-- Claim C2 (amended): the membership weights are
q[j] = dMVN(Wstar_i; mu_j, Sigma_j) for every j distinct from i,
while the new-table weight alpha * dMVT(Wstar_i; mu0, S_bvt, nu0-1)
occupies the own slot j = i of the unit (it is last only when
i = t_samp - 1); the weights are normalized into a cumulative
distribution whose final entry is exactly 1, and j is drawn as the
first index whose cumulative weight is at least the uniform draw,
which always exists strictly inside the vector. -/
theorem clusterWeights_amended_C2 (i t : ℕ) (dmvn : ℕ → ℚ)
    (alpha tnew u : ℚ) (hi : i < t) (hpos : ∀ j, 0 < dmvn j)
    (hnew : 0 < alpha * tnew) (hu : u < 1) :
    (genQ i dmvn alpha tnew t).length = t ∧
    (genQ i dmvn alpha tnew t).getD i 0 = alpha * tnew ∧
    (∀ j, j < t → j ≠ i →
      (genQ i dmvn alpha tnew t).getD j 0 = dmvn j) ∧
    (normCum (genQ i dmvn alpha tnew t)).getLast? = some 1 ∧
    whileFind u (normCum (genQ i dmvn alpha tnew t)) < t ∧
    (∀ k, k < whileFind u (normCum (genQ i dmvn alpha tnew t)) →
      u > (normCum (genQ i dmvn alpha tnew t)).getD k 0) ∧
    u ≤ (normCum (genQ i dmvn alpha tnew t)).getD
      (whileFind u (normCum (genQ i dmvn alpha tnew t))) 0 := by
  have hne : genQ i dmvn alpha tnew t ≠ [] := by
    have := genQ_length i dmvn alpha tnew t
    intro h
    rw [h] at this
    simp at this
    omega
  have hqpos := genQ_pos i t dmvn alpha tnew hpos hnew
  have hsum : (0 : ℚ) < (genQ i dmvn alpha tnew t).sum :=
    List.sum_pos _ hqpos hne
  have hlast := normCum_getLast _ hne (ne_of_gt hsum)
  have hlen : (normCum (genQ i dmvn alpha tnew t)).length = t := by
    rw [normCum_length, genQ_length]
  have hlt : whileFind u (normCum (genQ i dmvn alpha tnew t)) < t := by
    have h1 : (1 : ℚ) ∈ normCum (genQ i dmvn alpha tnew t) :=
      mem_of_getLastEq hlast
    have := whileFind_lt_of_exists u _ ⟨1, h1, le_of_lt hu⟩
    rwa [hlen] at this
  refine ⟨genQ_length i dmvn alpha tnew t, ?_, ?_, hlast, hlt, ?_, ?_⟩
  · rw [genQ_getD i t i dmvn alpha tnew hi, if_pos rfl]
  · intro j hj hji
    rw [genQ_getD i t j dmvn alpha tnew hj, if_neg hji]
  · intro k hk
    exact whileFind_gt u _ k hk
  · exact whileFind_stop u _ (by rwa [hlen])

/-- Witness for clusterWeights_amended_C2 at i = 0, t = 2, dMVN
values j + 2, alpha = 1, new-table density 5, draw 1/2. -/
theorem clusterWeights_amended_C2_witness :
    (genQ 0 (fun j => (j : ℚ) + 2) 1 5 2).length = 2 ∧
    (genQ 0 (fun j => (j : ℚ) + 2) 1 5 2).getD 0 0 = 1 * 5 ∧
    (∀ j, j < 2 → j ≠ 0 →
      (genQ 0 (fun j => (j : ℚ) + 2) 1 5 2).getD j 0 = (j : ℚ) + 2) ∧
    (normCum (genQ 0 (fun j => (j : ℚ) + 2) 1 5 2)).getLast? = some 1 ∧
    whileFind (1/2) (normCum (genQ 0 (fun j => (j : ℚ) + 2) 1 5 2)) < 2 ∧
    (∀ k, k < whileFind (1/2) (normCum (genQ 0 (fun j => (j : ℚ) + 2) 1 5 2)) →
      (1/2 : ℚ) > (normCum (genQ 0 (fun j => (j : ℚ) + 2) 1 5 2)).getD k 0) ∧
    (1/2 : ℚ) ≤ (normCum (genQ 0 (fun j => (j : ℚ) + 2) 1 5 2)).getD
      (whileFind (1/2) (normCum (genQ 0 (fun j => (j : ℚ) + 2) 1 5 2))) 0 :=
  clusterWeights_amended_C2 0 2 (fun j => (j : ℚ) + 2) 1 5 (1/2)
    (by norm_num) (fun j => by positivity) (by norm_num) (by norm_num)

/-- Helper: the remix loop assigns block counters starting at n0,
every emitted label lies in [n0, final nstar) with its parameter
equal to the draw for that label, every label in that range is
attained, and the emitted units are a permutation of the input
units. -/
theorem remixAux_spec {α : Type} (draws : ℕ → α) :
    ∀ (n : ℕ) (l : List (ℕ × ℕ)), l.length ≤ n → ∀ n0 : ℕ,
      (n0 ≤ (remixAux draws l n0).2) ∧
      (∀ e ∈ (remixAux draws l n0).1,
        n0 ≤ e.2.1 ∧ e.2.1 < (remixAux draws l n0).2 ∧
          e.2.2 = draws e.2.1) ∧
      (∀ m, n0 ≤ m → m < (remixAux draws l n0).2 →
        ∃ e ∈ (remixAux draws l n0).1, e.2.1 = m) ∧
      (((remixAux draws l n0).1.map Prod.fst).Perm (l.map Prod.snd)) := by
  have hnilEq : ∀ n0 : ℕ, remixAux draws ([] : List (ℕ × ℕ)) n0 = ([], n0) := by
    intro n0
    rw [remixAux]
  intro n
  induction n with
  | zero =>
      intro l hl n0
      have hnil : l = [] := List.length_eq_zero.mp (Nat.le_zero.mp hl)
      subst hnil
      rw [hnilEq n0]
      exact ⟨le_refl n0, by simp, by intro m h1 h2; simp at h2; omega, by simp⟩
  | succ n ih =>
      intro l hl n0
      cases l with
      | nil =>
          rw [hnilEq n0]
          exact ⟨le_refl n0, by simp, by intro m h1 h2; simp at h2; omega,
            by simp⟩
      | cons p rest =>
          have hdrop : (rest.drop (blockLen p.1 rest)).length ≤ n := by
            simp only [List.length_drop]
            simp only [List.length_cons] at hl
            omega
          obtain ⟨ih1, ih2, ih3, ih4⟩ :=
            ih (rest.drop (blockLen p.1 rest)) hdrop (n0 + 1)
          have heq1 : (remixAux draws (p :: rest) n0).1 =
              (p.2 :: (rest.take (blockLen p.1 rest)).map Prod.snd).map
                (fun uu => (uu, n0, draws n0)) ++
                (remixAux draws (rest.drop (blockLen p.1 rest)) (n0 + 1)).1 := by
            rw [remixAux]
          have heq2 : (remixAux draws (p :: rest) n0).2 =
              (remixAux draws (rest.drop (blockLen p.1 rest)) (n0 + 1)).2 := by
            rw [remixAux]
          rw [heq1, heq2]
          refine ⟨by omega, ?_, ?_, ?_⟩
          · intro e he
            rcases List.mem_append.mp he with h1 | h1
            · rcases List.mem_map.mp h1 with ⟨uu, _, rfl⟩
              refine ⟨le_refl n0, ?_, rfl⟩
              show n0 <
                (remixAux draws (rest.drop (blockLen p.1 rest)) (n0 + 1)).2
              omega
            · obtain ⟨ha, hb, hc⟩ := ih2 e h1
              exact ⟨by omega, hb, hc⟩
          · intro m hm1 hm2
            by_cases hm : m = n0
            · subst hm
              refine ⟨(p.2, m, draws m), ?_, rfl⟩
              apply List.mem_append_left
              exact List.mem_map.mpr ⟨p.2, List.mem_cons_self _ _, rfl⟩
            · obtain ⟨e, he, hlab⟩ := ih3 m (by omega) hm2
              exact ⟨e, List.mem_append_right _ he, hlab⟩
          · rw [List.map_append, List.map_map]
            have hcomp :
                (Prod.fst ∘ fun uu : ℕ => ((uu, n0, draws n0) : ℕ × ℕ × α)) =
                  id := rfl
            rw [hcomp, List.map_id]
            have hsplit : rest.map Prod.snd =
                (rest.take (blockLen p.1 rest)).map Prod.snd ++
                  (rest.drop (blockLen p.1 rest)).map Prod.snd := by
              rw [← List.map_append, List.take_append_drop]
            simp only [List.map_cons, hsplit, List.cons_append]
            exact (List.Perm.append_left _ ih4).cons p.2

/-- Claim C7: after a remix pass on any membership vector C, the new
labels form the contiguous range [0, nstar) over the effective
sample: the label of every unit is below the returned nstar, every label
below nstar is attained, the parameter triple of every unit equals exactly
the canonical draw of its (new) cluster, and the pass emits each unit
of the sample exactly once. -/
theorem remix_contiguous_canonical {α : Type} (draws : ℕ → α)
    (C : List ℕ) :
    (∀ e ∈ (remix draws C).1,
      e.2.1 < (remix draws C).2 ∧ e.2.2 = draws e.2.1) ∧
    (∀ m, m < (remix draws C).2 → ∃ e ∈ (remix draws C).1, e.2.1 = m) ∧
    (((remix draws C).1.map Prod.fst).Perm (List.range C.length)) := by
  obtain ⟨h1, h2, h3, h4⟩ :=
    remixAux_spec draws (sortPairs C).length (sortPairs C) le_rfl 0
  refine ⟨?_, ?_, ?_⟩
  · intro e he
    exact ⟨(h2 e he).2.1, (h2 e he).2.2⟩
  · intro m hm
    exact h3 m (Nat.zero_le m) hm
  · have hperm := List.perm_insertionSort (fun a b : ℕ × ℕ => a.1 ≤ b.1)
      (C.enum.map (fun p => (p.2, p.1)))
    have h5 : ((sortPairs C).map Prod.snd).Perm
        ((C.enum.map (fun p => (p.2, p.1))).map Prod.snd) :=
      hperm.map Prod.snd
    have h6 : (C.enum.map (fun p => (p.2, p.1))).map Prod.snd =
        List.range C.length := by
      rw [List.map_map]
      have hc : (Prod.snd ∘ fun p : ℕ × ℕ => (p.2, p.1)) = Prod.fst := rfl
      rw [hc, List.enum_map_fst]
    exact h4.trans (h6 ▸ h5)

/-- Witness for remix_contiguous_canonical on the concrete membership
vector [3, 1, 3] with draws n = n. -/
theorem remix_contiguous_canonical_witness :
    (∀ e ∈ (remix (fun n : ℕ => n) [3, 1, 3]).1,
      e.2.1 < (remix (fun n : ℕ => n) [3, 1, 3]).2 ∧ e.2.2 = e.2.1) ∧
    (∀ m, m < (remix (fun n : ℕ => n) [3, 1, 3]).2 →
      ∃ e ∈ (remix (fun n : ℕ => n) [3, 1, 3]).1, e.2.1 = m) ∧
    (((remix (fun n : ℕ => n) [3, 1, 3]).1.map Prod.fst).Perm
      (List.range ([3, 1, 3] : List ℕ).length)) :=
  remix_contiguous_canonical (fun n : ℕ => n) [3, 1, 3]

end Eco
